import Mathlib

/-!
Verification of the delay queue in divinerapier/delayqueue-rs (src/src/lib.rs).

The library is a concurrent delay queue: a min-heap of reference-counted
items (ordered by deadline) together with a leader slot
(current_thread : Option ThreadId), both protected by one mutex, plus a
condition variable (available).  put pushes an item and notifies one
waiter when the pushed item became the new head; take loops, popping the
head once it is due, otherwise waiting (indefinitely as a follower, or
with a timeout equal to the head's remaining delay as the leader).

Shallow embedding:
- An item is its deadline (the Ord key; delayed() = deadline - now, as in
  the Delayed contract) plus an id distinguishing payloads.
- The BinaryHeap of Reverse-wrapped items is a list with deterministic
  min-peek and min-pop (peek/pop agree on the element they select, as in
  the source heap; ties are broken arbitrarily there and deterministically
  here).
- Each mutex-protected section of put/take is one pure step function on
  the inner state; the possible panic of pop().unwrap() is Option.none.
- Concurrency is a labeled step relation on a global state: the shared
  inner state plus one program counter per thread, a step being one
  atomic locked section or one wake-up from a wait.
-/

namespace DelayQueueRs

/-- An element of the queue: the user type T of the library.  T supplies a
total order (modeled by its deadline, the key the heap orders by) and a
remaining-delay query delayed(); id distinguishes payloads. -/
structure Item where
  deadline : Int
  id : Nat
deriving DecidableEq

/-- The Delayed trait method: remaining delay at time now is the deadline
minus the current time (negative or zero meaning due). -/
def Item.delayed (it : Item) (now : Int) : Int :=
  it.deadline - now

/-- Peek of the min-heap BinaryHeap of Reverse-wrapped items: the element
with the smallest deadline (deterministically, the latest-pushed among
ties, pushes being conses). -/
def peekMin : List Item → Option Item
  | [] => none
  | x :: xs =>
    match peekMin xs with
    | none => some x
    | some y => some (if y.deadline < x.deadline then y else x)

/-- Pop of the min-heap: removes the element peekMin selects, returning it
and the remaining elements; none on the empty heap (the unwrap panic
case). -/
def popMin : List Item → Option (Item × List Item)
  | [] => none
  | x :: xs =>
    match popMin xs with
    | none => some (x, [])
    | some (y, ys) =>
      if y.deadline < x.deadline then some (y, x :: ys) else some (x, xs)

/-- The mutex-protected inner state of the queue: the heap of items and
the leader slot (current_thread); thread ids are naturals. -/
structure DelayQueueInner where
  queue : List Item
  current_thread : Option Nat
deriving DecidableEq

/-- DelayQueueInner::peek of the source: peek of the underlying heap. -/
def DelayQueueInner.peek (s : DelayQueueInner) : Option Item :=
  peekMin s.queue

/-- DelayQueue::put, the whole locked section: push the item, then
notify_one exactly when the heap's peek now equals the pushed item.  The
Bool is whether notify_one was called. -/
def putStep (s : DelayQueueInner) (t : Item) : DelayQueueInner × Bool :=
  let q := t :: s.queue
  ({ s with queue := q }, decide (peekMin q = some t))

/-- How one iteration of the take loop ends: indefinite wait on the empty
store, pop-and-return of a due head (with the Bool recording whether
notify_one was called), indefinite follower wait, or leader timed wait
with the given timeout. -/
inductive TakeOutcome where
  | waitEmpty : TakeOutcome
  | waitFollower : TakeOutcome
  | leaderWait : Int → TakeOutcome
  | returned : Item → Bool → TakeOutcome
deriving DecidableEq

/-- One iteration of the take loop, from holding the lock at the loop head
to the next suspension point or return, as in the source: match on peek;
on None wait; otherwise evaluate delayed() on the head; if due, pop
(unwrap modeled by the Option: none is the panic), notify_one when no
leader is recorded and the store is still nonempty, and return; if not
due, wait indefinitely when a leader exists, else record this thread as
leader and start a timed wait for the evaluated delay. -/
def takeLoopStep (s : DelayQueueInner) (tid : Nat) (now : Int) :
    Option (DelayQueueInner × TakeOutcome) :=
  match peekMin s.queue with
  | none => some (s, TakeOutcome.waitEmpty)
  | some first =>
    let d := first.delayed now
    if d ≤ 0 then
      match popMin s.queue with
      | none => none
      | some (item, rest) =>
        let notified := s.current_thread.isNone && (peekMin rest).isSome
        some ({ s with queue := rest }, TakeOutcome.returned item notified)
    else
      match s.current_thread with
      | some _ => some (s, TakeOutcome.waitFollower)
      | none =>
        some ({ s with current_thread := some tid }, TakeOutcome.leaderWait d)

/-- Reacquiring the lock after the leader's timed wait: clear the leader
slot exactly when this thread is still the one recorded there. -/
def leaderWakeStep (s : DelayQueueInner) (tid : Nat) : DelayQueueInner :=
  if s.current_thread = some tid then { s with current_thread := none } else s

/-- Control location of a thread with respect to the queue: outside any
call, at the take loop head (about to run a locked iteration), blocked in
an untimed wait, or blocked in the leader's timed wait with its timeout. -/
inductive PC where
  | idle : PC
  | ready : PC
  | blockedIndef : PC
  | blockedTimed : Int → PC
deriving DecidableEq

/-- Global state: the shared inner state and each thread's control
location. -/
structure GState where
  inner : DelayQueueInner
  pcs : Nat → PC

/-- Labels of the step relation. -/
inductive Label where
  | putItem : Nat → Item → Bool → Label
  | beginTake : Nat → Label
  | loopIter : Nat → Int → TakeOutcome → Label
  | wakeIndef : Nat → Label
  | wakeTimed : Nat → Label
deriving DecidableEq

/-- The control location a thread moves to after one take-loop iteration:
blocked for the wait outcomes, idle after a return. -/
def pcAfter : TakeOutcome → PC
  | TakeOutcome.waitEmpty => PC.blockedIndef
  | TakeOutcome.waitFollower => PC.blockedIndef
  | TakeOutcome.leaderWait d => PC.blockedTimed d
  | TakeOutcome.returned _ _ => PC.idle

/-- The step relation generated by put and take: a step is one atomic
locked section (a whole put, one take-loop iteration, the leader's
post-wait section) or a scheduling event (entering take, waking from an
untimed wait, which covers notifications and spurious wakes alike). -/
inductive Step : GState → Label → GState → Prop where
  | put (g : GState) (tid : Nat) (item : Item) :
      g.pcs tid = PC.idle →
      Step g (Label.putItem tid item (putStep g.inner item).2)
        ⟨(putStep g.inner item).1, g.pcs⟩
  | beginTake (g : GState) (tid : Nat) :
      g.pcs tid = PC.idle →
      Step g (Label.beginTake tid) ⟨g.inner, Function.update g.pcs tid PC.ready⟩
  | loopIter (g : GState) (tid : Nat) (now : Int) (s' : DelayQueueInner)
      (out : TakeOutcome) :
      g.pcs tid = PC.ready →
      takeLoopStep g.inner tid now = some (s', out) →
      Step g (Label.loopIter tid now out)
        ⟨s', Function.update g.pcs tid (pcAfter out)⟩
  | wakeIndef (g : GState) (tid : Nat) :
      g.pcs tid = PC.blockedIndef →
      Step g (Label.wakeIndef tid) ⟨g.inner, Function.update g.pcs tid PC.ready⟩
  | wakeTimed (g : GState) (tid : Nat) (d : Int) :
      g.pcs tid = PC.blockedTimed d →
      Step g (Label.wakeTimed tid)
        ⟨leaderWakeStep g.inner tid, Function.update g.pcs tid PC.ready⟩

/-- Finite runs of the step relation, recording the trace of labels. -/
inductive Steps : GState → List Label → GState → Prop where
  | nil (g : GState) : Steps g [] g
  | cons {g g₁ g₂ : GState} {l : Label} {ls : List Label} :
      Step g l g₁ → Steps g₁ ls g₂ → Steps g (l :: ls) g₂

/-- The state of a freshly constructed queue: empty store, no leader, every
thread outside the queue. -/
def initState : GState :=
  ⟨⟨[], none⟩, fun _ => PC.idle⟩

/-- States reachable from the initial state by the step relation. -/
inductive Reachable : GState → Prop where
  | init : Reachable initState
  | step {g g' : GState} {l : Label} :
      Reachable g → Step g l g' → Reachable g'

/-- A label is a return of item x by some take-loop iteration. -/
def returnsItem (l : Label) (x : Item) : Prop :=
  ∃ tid now b, l = Label.loopIter tid now (TakeOutcome.returned x b)

theorem peekMin_eq_none_iff {l : List Item} : peekMin l = none ↔ l = [] := by
  cases l with
  | nil => simp [peekMin]
  | cons x xs => cases hp : peekMin xs <;> simp [peekMin, hp]

theorem peekMin_mem : ∀ {l : List Item} {x : Item}, peekMin l = some x → x ∈ l := by
  intro l
  induction l with
  | nil => intro x h; simp [peekMin] at h
  | cons a as ih =>
    intro x h
    cases hp : peekMin as with
    | none =>
      simp [peekMin, hp] at h
      simp [h]
    | some y =>
      simp [peekMin, hp] at h
      by_cases hlt : y.deadline < a.deadline
      · rw [if_pos hlt] at h
        rw [← h]
        exact List.mem_cons_of_mem _ (ih hp)
      · rw [if_neg hlt] at h
        rw [← h]
        exact List.mem_cons_self _ _

theorem peekMin_min : ∀ {l : List Item} {x : Item}, peekMin l = some x →
    ∀ u ∈ l, x.deadline ≤ u.deadline := by
  intro l
  induction l with
  | nil => intro x h; simp [peekMin] at h
  | cons a as ih =>
    intro x h u hu
    cases hp : peekMin as with
    | none =>
      have he : as = [] := peekMin_eq_none_iff.mp hp
      subst he
      simp [peekMin] at h
      simp at hu
      rw [hu, ← h]
    | some y =>
      simp [peekMin, hp] at h
      have hymin : ∀ v ∈ as, y.deadline ≤ v.deadline := ih hp
      rcases List.mem_cons.mp hu with hua | huas
      · rw [hua]
        by_cases hlt : y.deadline < a.deadline
        · rw [if_pos hlt] at h
          rw [← h]
          exact le_of_lt hlt
        · rw [if_neg hlt] at h
          rw [← h]
      · by_cases hlt : y.deadline < a.deadline
        · rw [if_pos hlt] at h
          rw [← h]
          exact hymin u huas
        · rw [if_neg hlt] at h
          rw [← h]
          exact le_trans (le_of_not_lt hlt) (hymin u huas)

theorem popMin_map_fst : ∀ l : List Item, (popMin l).map Prod.fst = peekMin l := by
  intro l
  induction l with
  | nil => simp [popMin, peekMin]
  | cons a as ih =>
    cases hp : popMin as with
    | none =>
      have hpk : peekMin as = none := by rw [← ih, hp]; rfl
      simp [popMin, peekMin, hp, hpk]
    | some p =>
      rcases p with ⟨y, ys⟩
      have hpk : peekMin as = some y := by rw [← ih, hp]; rfl
      simp only [popMin, peekMin, hp, hpk]
      by_cases hlt : y.deadline < a.deadline
      · rw [if_pos hlt, if_pos hlt]
        rfl
      · rw [if_neg hlt, if_neg hlt]
        rfl

theorem popMin_eq_none_iff {l : List Item} : popMin l = none ↔ l = [] := by
  rw [← peekMin_eq_none_iff, ← popMin_map_fst]
  cases popMin l <;> simp

theorem popMin_fst_eq_peekMin {l : List Item} {x : Item} {r : List Item}
    (h : popMin l = some (x, r)) : peekMin l = some x := by
  rw [← popMin_map_fst, h]
  rfl

theorem popMin_perm : ∀ {l : List Item} {x : Item} {r : List Item},
    popMin l = some (x, r) → l.Perm (x :: r) := by
  intro l
  induction l with
  | nil => intro x r h; simp [popMin] at h
  | cons a as ih =>
    intro x r h
    cases hp : popMin as with
    | none =>
      have he : as = [] := popMin_eq_none_iff.mp hp
      subst he
      simp [popMin] at h
      obtain ⟨h1, h2⟩ := h
      subst h1
      subst h2
      exact List.Perm.refl _
    | some p =>
      rcases p with ⟨y, ys⟩
      simp only [popMin, hp] at h
      by_cases hlt : y.deadline < a.deadline
      · rw [if_pos hlt] at h
        simp at h
        obtain ⟨h1, h2⟩ := h
        subst h1
        subst h2
        exact ((ih hp).cons a).trans (List.Perm.swap _ _ _)
      · rw [if_neg hlt] at h
        simp at h
        obtain ⟨h1, h2⟩ := h
        subst h1
        subst h2
        exact List.Perm.refl _

theorem peekMin_cons_self {t : Item} {q : List Item} :
    peekMin (t :: q) = some t ↔ ∀ u ∈ q, t.deadline ≤ u.deadline := by
  constructor
  · intro h u hu
    exact peekMin_min h u (List.mem_cons_of_mem _ hu)
  · intro h
    cases hp : peekMin q with
    | none => simp [peekMin, hp]
    | some y =>
      have hy : y ∈ q := peekMin_mem hp
      have hnlt : ¬ y.deadline < t.deadline := not_lt.mpr (h y hy)
      simp [peekMin, hp, hnlt]

theorem takeLoopStep_empty {s : DelayQueueInner} (tid : Nat) (now : Int)
    (h : s.queue = []) :
    takeLoopStep s tid now = some (s, TakeOutcome.waitEmpty) := by
  have hp : peekMin s.queue = none := peekMin_eq_none_iff.mpr h
  simp [takeLoopStep, hp]

theorem takeLoopStep_isSome (s : DelayQueueInner) (tid : Nat) (now : Int) :
    (takeLoopStep s tid now).isSome := by
  cases hp : peekMin s.queue with
  | none => simp [takeLoopStep, hp]
  | some first =>
    by_cases hd : first.delayed now ≤ 0
    · cases hq : popMin s.queue with
      | none =>
        exfalso
        have hn : peekMin s.queue = none := by
          rw [← popMin_map_fst, hq]
          rfl
        rw [hp] at hn
        cases hn
      | some p =>
        rcases p with ⟨item, rest⟩
        simp [takeLoopStep, hp, hd, hq]
    · cases hc : s.current_thread <;> simp [takeLoopStep, hp, hd, hc]

theorem takeLoopStep_returned {s s' : DelayQueueInner} {tid : Nat} {now : Int}
    {item : Item} {b : Bool}
    (h : takeLoopStep s tid now = some (s', TakeOutcome.returned item b)) :
    peekMin s.queue = some item ∧ item.delayed now ≤ 0 ∧
      popMin s.queue = some (item, s'.queue) ∧
      s'.current_thread = s.current_thread ∧
      b = (s.current_thread.isNone && (peekMin s'.queue).isSome) := by
  cases hp : peekMin s.queue with
  | none => simp [takeLoopStep, hp] at h
  | some first =>
    by_cases hd : first.delayed now ≤ 0
    · cases hq : popMin s.queue with
      | none => simp [takeLoopStep, hp, hd, hq] at h
      | some p =>
        rcases p with ⟨x, rest⟩
        have hfx : first = x := by
          have h2 := popMin_fst_eq_peekMin hq
          rw [hp] at h2
          exact Option.some.inj h2
        simp [takeLoopStep, hp, hd, hq] at h
        obtain ⟨hs, hx, hb⟩ := h
        have hsq : s'.queue = rest := by rw [← hs]
        have hsc : s'.current_thread = s.current_thread := by rw [← hs]
        refine ⟨?_, ?_, ?_, hsc, ?_⟩
        · rw [hfx, hx]
        · rw [← hx, ← hfx]
          exact hd
        · rw [hsq, ← hx]
        · rw [← hb, hsq]
    · cases hc : s.current_thread <;> simp [takeLoopStep, hp, hd, hc] at h

theorem takeLoopStep_follower {s : DelayQueueInner} {tid t : Nat} {now : Int}
    {first : Item} (hp : peekMin s.queue = some first)
    (hd : 0 < first.delayed now) (hc : s.current_thread = some t) :
    takeLoopStep s tid now = some (s, TakeOutcome.waitFollower) := by
  simp [takeLoopStep, hp, not_le.mpr hd, hc]

theorem takeLoopStep_leader {s : DelayQueueInner} {tid : Nat} {now : Int}
    {first : Item} (hp : peekMin s.queue = some first)
    (hd : 0 < first.delayed now) (hc : s.current_thread = none) :
    takeLoopStep s tid now =
      some ({ s with current_thread := some tid },
        TakeOutcome.leaderWait (first.delayed now)) := by
  simp [takeLoopStep, hp, not_le.mpr hd, hc]

theorem takeLoopStep_current_of_some {s s' : DelayQueueInner} {tid t : Nat}
    {now : Int} {out : TakeOutcome}
    (h : takeLoopStep s tid now = some (s', out))
    (hc : s.current_thread = some t) : s'.current_thread = some t := by
  cases hp : peekMin s.queue with
  | none =>
    simp [takeLoopStep, hp] at h
    rw [← h.1, hc]
  | some first =>
    by_cases hd : first.delayed now ≤ 0
    · cases hq : popMin s.queue with
      | none => simp [takeLoopStep, hp, hd, hq] at h
      | some p =>
        rcases p with ⟨x, rest⟩
        simp [takeLoopStep, hp, hd, hq] at h
        rw [← h.1, hc]
    · simp [takeLoopStep, hp, hd, hc] at h
      rw [← h.1, hc]

theorem takeLoopStep_queue_cases {s s' : DelayQueueInner} {tid : Nat}
    {now : Int} {out : TakeOutcome}
    (h : takeLoopStep s tid now = some (s', out)) :
    (∃ item b, out = TakeOutcome.returned item b ∧
      popMin s.queue = some (item, s'.queue)) ∨ s'.queue = s.queue := by
  cases hp : peekMin s.queue with
  | none =>
    simp [takeLoopStep, hp] at h
    right
    rw [← h.1]
  | some first =>
    by_cases hd : first.delayed now ≤ 0
    · cases hq : popMin s.queue with
      | none => simp [takeLoopStep, hp, hd, hq] at h
      | some p =>
        rcases p with ⟨x, rest⟩
        simp [takeLoopStep, hp, hd, hq] at h
        obtain ⟨hs, hout⟩ := h
        left
        refine ⟨x, s.current_thread.isNone && (peekMin rest).isSome, ?_, ?_⟩
        · rw [← hout]
        · have hsq : s'.queue = rest := by rw [← hs]
          rw [hsq]
    · cases hc : s.current_thread with
      | none =>
        simp [takeLoopStep, hp, hd, hc] at h
        right
        rw [← h.1]
      | some t =>
        simp [takeLoopStep, hp, hd, hc] at h
        right
        rw [← h.1]

theorem takeLoopStep_current_cases {s s' : DelayQueueInner} {tid : Nat}
    {now : Int} {out : TakeOutcome}
    (h : takeLoopStep s tid now = some (s', out)) :
    s'.current_thread = s.current_thread ∨
      (s.current_thread = none ∧ s'.current_thread = some tid ∧
        ∃ d, out = TakeOutcome.leaderWait d) := by
  cases hp : peekMin s.queue with
  | none =>
    simp [takeLoopStep, hp] at h
    left
    rw [← h.1]
  | some first =>
    by_cases hd : first.delayed now ≤ 0
    · cases hq : popMin s.queue with
      | none => simp [takeLoopStep, hp, hd, hq] at h
      | some p =>
        rcases p with ⟨x, rest⟩
        simp [takeLoopStep, hp, hd, hq] at h
        left
        rw [← h.1]
    · cases hc : s.current_thread with
      | some t =>
        simp [takeLoopStep, hp, hd, hc] at h
        left
        rw [← h.1]
        exact hc
      | none =>
        simp [takeLoopStep, hp, hd, hc] at h
        right
        refine ⟨rfl, ?_, first.delayed now, ?_⟩
        · rw [← h.1]
        · rw [← h.2]

theorem Step_mem_queue {g g' : GState} {l : Label} {x : Item}
    (hstep : Step g l g') (hx : x ∈ g.inner.queue) :
    x ∈ g'.inner.queue ∨ returnsItem l x := by
  cases hstep with
  | put tid item hpc =>
    left
    simp only [putStep]
    exact List.mem_cons_of_mem _ hx
  | beginTake tid hpc => exact Or.inl hx
  | loopIter tid now s' out hpc hts =>
    rcases takeLoopStep_queue_cases hts with ⟨item, b, hout, hpop⟩ | hsame
    · by_cases hxi : x = item
      · right
        exact ⟨tid, now, b, by rw [hout, hxi]⟩
      · left
        have hperm := popMin_perm hpop
        have hmem : x ∈ item :: s'.queue := hperm.mem_iff.mp hx
        rcases List.mem_cons.mp hmem with he | hm
        · exact absurd he hxi
        · exact hm
    · left
      show x ∈ s'.queue
      rw [hsame]
      exact hx
  | wakeIndef tid hpc => exact Or.inl hx
  | wakeTimed tid d hpc =>
    left
    show x ∈ (leaderWakeStep g.inner tid).queue
    unfold leaderWakeStep
    split <;> exact hx

theorem Steps_append : ∀ {as : List Label} {g g' : GState} {bs : List Label},
    Steps g (as ++ bs) g' → ∃ gm, Steps g as gm ∧ Steps gm bs g' := by
  intro as
  induction as with
  | nil =>
    intro g g' bs h
    exact ⟨g, Steps.nil g, h⟩
  | cons a as ih =>
    intro g g' bs h
    cases h with
    | cons hstep hrest =>
      rcases ih hrest with ⟨gm, h1, h2⟩
      exact ⟨gm, Steps.cons hstep h1, h2⟩

theorem Steps_mem_queue : ∀ {ls : List Label} {g g' : GState} {x : Item},
    Steps g ls g' → x ∈ g.inner.queue →
    x ∈ g'.inner.queue ∨ ∃ l ∈ ls, returnsItem l x := by
  intro ls
  induction ls with
  | nil =>
    intro g g' x h hx
    cases h
    exact Or.inl hx
  | cons a as ih =>
    intro g g' x h hx
    cases h with
    | cons hstep hrest =>
      rcases Step_mem_queue hstep hx with hmem | hret
      · rcases ih hrest hmem with hmem' | ⟨l, hl, hr⟩
        · exact Or.inl hmem'
        · exact Or.inr ⟨l, List.mem_cons_of_mem _ hl, hr⟩
      · exact Or.inr ⟨a, List.mem_cons_self _ _, hret⟩

/-- The inductive invariant behind single leadership: whenever a thread is
recorded in the leader slot, that thread is blocked in its own timed
wait. -/
def LeaderInv (g : GState) : Prop :=
  ∀ t, g.inner.current_thread = some t → ∃ d, g.pcs t = PC.blockedTimed d

theorem Step_leaderInv {g g' : GState} {l : Label} (hstep : Step g l g')
    (hinv : LeaderInv g) : LeaderInv g' := by
  cases hstep with
  | put tid item hpc =>
    intro t ht
    have hg : g.inner.current_thread = some t := by
      simpa [putStep] using ht
    exact hinv t hg
  | beginTake tid hpc =>
    intro t ht
    rcases hinv t ht with ⟨d, hd⟩
    have hne : t ≠ tid := by
      intro he
      rw [he, hpc] at hd
      cases hd
    refine ⟨d, ?_⟩
    show Function.update g.pcs tid PC.ready t = PC.blockedTimed d
    rw [Function.update_noteq hne]
    exact hd
  | loopIter tid now s' out hpc hts =>
    intro t ht
    rcases takeLoopStep_current_cases hts with hsame | ⟨hnone, hcur, d0, hout⟩
    · have hg : g.inner.current_thread = some t := hsame.symm.trans ht
      rcases hinv t hg with ⟨d, hd⟩
      have hne : t ≠ tid := by
        intro he
        rw [he, hpc] at hd
        cases hd
      refine ⟨d, ?_⟩
      show Function.update g.pcs tid (pcAfter out) t = PC.blockedTimed d
      rw [Function.update_noteq hne]
      exact hd
    · have hti : t = tid := by
        rw [hcur] at ht
        exact (Option.some.inj ht).symm
      subst hti
      exact ⟨d0, by simp [hout, pcAfter, Function.update_same]⟩
  | wakeIndef tid hpc =>
    intro t ht
    rcases hinv t ht with ⟨d, hd⟩
    have hne : t ≠ tid := by
      intro he
      rw [he, hpc] at hd
      cases hd
    refine ⟨d, ?_⟩
    show Function.update g.pcs tid PC.ready t = PC.blockedTimed d
    rw [Function.update_noteq hne]
    exact hd
  | wakeTimed tid d hpc =>
    intro t ht
    by_cases hc : g.inner.current_thread = some tid
    · simp [leaderWakeStep, hc] at ht
    · have hg : g.inner.current_thread = some t := by
        simpa [leaderWakeStep, hc] using ht
      rcases hinv t hg with ⟨d', hd'⟩
      have hne : t ≠ tid := by
        intro he
        rw [he] at hg
        exact hc hg
      refine ⟨d', ?_⟩
      show Function.update g.pcs tid PC.ready t = PC.blockedTimed d'
      rw [Function.update_noteq hne]
      exact hd'

theorem reachable_leaderInv : ∀ {g : GState}, Reachable g → LeaderInv g := by
  intro g h
  induction h with
  | init =>
    intro t ht
    simp [initState] at ht
  | step hr hstep ih => exact Step_leaderInv hstep ih

theorem takeLoopStep_waitEmpty_inv {s s' : DelayQueueInner} {tid : Nat}
    {now : Int} (h : takeLoopStep s tid now = some (s', TakeOutcome.waitEmpty)) :
    s' = s ∧ s.queue = [] := by
  cases hp : peekMin s.queue with
  | none =>
    simp [takeLoopStep, hp] at h
    exact ⟨h.symm, peekMin_eq_none_iff.mp hp⟩
  | some first =>
    by_cases hd : first.delayed now ≤ 0
    · cases hq : popMin s.queue with
      | none => simp [takeLoopStep, hp, hd, hq] at h
      | some p =>
        rcases p with ⟨x, rest⟩
        simp [takeLoopStep, hp, hd, hq] at h
    · cases hc : s.current_thread <;> simp [takeLoopStep, hp, hd, hc] at h

theorem takeLoopStep_leaderWait_inv {s s' : DelayQueueInner} {tid : Nat}
    {now d : Int}
    (h : takeLoopStep s tid now = some (s', TakeOutcome.leaderWait d)) :
    s.current_thread = none ∧ s' = { s with current_thread := some tid } ∧
      ∃ first, peekMin s.queue = some first ∧ d = first.delayed now ∧ 0 < d := by
  cases hp : peekMin s.queue with
  | none => simp [takeLoopStep, hp] at h
  | some first =>
    by_cases hd : first.delayed now ≤ 0
    · cases hq : popMin s.queue with
      | none => simp [takeLoopStep, hp, hd, hq] at h
      | some p =>
        rcases p with ⟨x, rest⟩
        simp [takeLoopStep, hp, hd, hq] at h
    · cases hc : s.current_thread with
      | some t => simp [takeLoopStep, hp, hd, hc] at h
      | none =>
        simp [takeLoopStep, hp, hd, hc] at h
        refine ⟨rfl, h.1.symm, first, rfl, h.2.symm, ?_⟩
        rw [← h.2]
        exact lt_of_not_le hd

/-- C1: for every invocation of take, the item it returns was observed to
be due inside the protocol: a take-loop step returns an item only when the
remaining delay it evaluated for that item under the lock was less than or
equal to zero; no item whose evaluated remaining delay was strictly
positive is ever returned. -/
theorem take_returns_only_due_items (g g' : GState) (tid : Nat) (now : Int)
    (item : Item) (b : Bool)
    (hstep : Step g (Label.loopIter tid now (TakeOutcome.returned item b)) g') :
    item.delayed now ≤ 0 := by
  cases hstep with
  | loopIter tid now s' out hpc hts => exact (takeLoopStep_returned hts).2.1

/-- C2: put pushes the item into the store, leaves everything else in the
inner state unchanged, and sends exactly one wake-up signal if and only if
the newly pushed item is now a minimum-deadline element of the store (it
became the new head). -/
theorem put_signals_iff_new_head (s : DelayQueueInner) (t : Item) :
    (putStep s t).1.queue = t :: s.queue ∧
      (putStep s t).1.current_thread = s.current_thread ∧
      ((putStep s t).2 = true ↔
        ∀ u ∈ (putStep s t).1.queue, t.deadline ≤ u.deadline) := by
  refine ⟨rfl, rfl, ?_⟩
  show decide (peekMin (t :: s.queue) = some t) = true ↔ _
  rw [decide_eq_true_iff, peekMin_cons_self]
  constructor
  · intro h u hu
    rcases List.mem_cons.mp hu with he | hm
    · rw [he]
    · exact h u hm
  · intro h u hu
    exact h u (List.mem_cons_of_mem _ hu)

/-- C5: invariant of the ordered store: peek returns an item exactly when
the store is nonempty, the peeked item is one of the queued items and has
the globally smallest deadline among them, peek removes nothing (it is a
pure function of the state), and pop removes exactly the peeked item,
leaving the rest; this holds of every store state, hence after any
sequence of pushes and pops. -/
theorem peek_returns_global_min (s : DelayQueueInner) :
    (s.peek = none ↔ s.queue = []) ∧
      (∀ x, s.peek = some x → x ∈ s.queue ∧
        ∀ u ∈ s.queue, x.deadline ≤ u.deadline) ∧
      (∀ x r, popMin s.queue = some (x, r) →
        s.peek = some x ∧ s.queue.Perm (x :: r)) := by
  refine ⟨peekMin_eq_none_iff, ?_, ?_⟩
  · intro x hx
    exact ⟨peekMin_mem hx, peekMin_min hx⟩
  · intro x r hpop
    exact ⟨popMin_fst_eq_peekMin hpop, popMin_perm hpop⟩

/-- C6: a take invocation on an empty store obtains no head and pops
nothing: the iteration leaves the state unchanged and waits indefinitely
(the thread blocks, re-looping on wake), and the internal pop with its
unwrap is only reached after a successful peek, so the empty-store panic
branch of pop is unreachable: the take-loop step is total. -/
theorem take_on_empty_waits (g g' : GState) :
    (∀ (s : DelayQueueInner) (tid : Nat) (now : Int), s.queue = [] →
      takeLoopStep s tid now = some (s, TakeOutcome.waitEmpty)) ∧
      (∀ (s : DelayQueueInner) (tid : Nat) (now : Int),
        takeLoopStep s tid now ≠ none) ∧
      (∀ tid now, Step g (Label.loopIter tid now TakeOutcome.waitEmpty) g' →
        g'.inner = g.inner ∧ g'.pcs tid = PC.blockedIndef) ∧
      (∀ tid, Step g (Label.wakeIndef tid) g' →
        g'.inner = g.inner ∧ g'.pcs tid = PC.ready) := by
  refine ⟨fun s tid now h => takeLoopStep_empty tid now h, ?_, ?_, ?_⟩
  · intro s tid now hn
    have hs := takeLoopStep_isSome s tid now
    rw [hn] at hs
    simp at hs
  · intro tid now hstep
    cases hstep with
    | loopIter tid now s' out hpc hts =>
      have hinv := takeLoopStep_waitEmpty_inv hts
      refine ⟨?_, ?_⟩
      · show s' = g.inner
        exact hinv.1
      · show Function.update g.pcs tid (pcAfter TakeOutcome.waitEmpty) tid =
          PC.blockedIndef
        rw [Function.update_same]
        rfl
  · intro tid hstep
    cases hstep with
    | wakeIndef tid hpc =>
      refine ⟨rfl, ?_⟩
      show Function.update g.pcs tid PC.ready tid = PC.ready
      rw [Function.update_same]

/-- C7: when a take-loop iteration pops a due item, it sends exactly one
wake-up signal if and only if no leader is currently recorded and the
store still has a remaining item after the pop; the iteration then ends
the call, returning the popped item (the thread goes back to idle, it does
not loop again). -/
theorem pop_signals_iff_no_leader_and_nonempty (g g' : GState) :
    (∀ (s s' : DelayQueueInner) (tid : Nat) (now : Int) (item : Item)
      (b : Bool),
      takeLoopStep s tid now = some (s', TakeOutcome.returned item b) →
      (b = true ↔ s.current_thread = none ∧ s'.queue ≠ [])) ∧
      (∀ tid now item b,
        Step g (Label.loopIter tid now (TakeOutcome.returned item b)) g' →
        g'.pcs tid = PC.idle) := by
  constructor
  · intro s s' tid now item b h
    have hb := (takeLoopStep_returned h).2.2.2.2
    rw [hb]
    rw [Bool.and_eq_true, Option.isNone_iff_eq_none, Option.isSome_iff_ne_none]
    rw [ne_eq, peekMin_eq_none_iff]
  · intro tid now item b hstep
    cases hstep with
    | loopIter tid now s' out hpc hts =>
      show Function.update g.pcs tid
        (pcAfter (TakeOutcome.returned item b)) tid = PC.idle
      rw [Function.update_same]
      rfl

/-- C9: the only state change a put performs is the insertion of the one
pushed item into the store (plus possibly one wake-up signal): the leader
slot is unchanged, and a put step never moves any thread into a waiting
state — every program counter is exactly as before, so put never performs
a timed or indefinite wait. -/
theorem put_frame (s : DelayQueueInner) (t : Item) (g g' : GState) :
    ((putStep s t).1.queue = t :: s.queue ∧
      (putStep s t).1.current_thread = s.current_thread) ∧
      (∀ tid item b, Step g (Label.putItem tid item b) g' →
        g'.pcs = g.pcs ∧ g'.inner.current_thread = g.inner.current_thread ∧
        g'.inner.queue = item :: g.inner.queue) := by
  refine ⟨⟨rfl, rfl⟩, ?_⟩
  intro tid item b hstep
  cases hstep with
  | put tid item hpc => exact ⟨rfl, rfl, rfl⟩

/-- C3: in take, when the head is not yet due and no leader is recorded,
the iteration records the calling thread as leader and starts a timed wait
whose timeout equals the computed remaining delay; and on any wake from a
timed wait the thread clears the leader slot if and only if it is still
the one recorded there, then re-loops (its control returns to the loop
head). -/
theorem leader_election_and_self_clear :
    (∀ (s : DelayQueueInner) (tid : Nat) (now : Int) (first : Item),
      peekMin s.queue = some first → 0 < first.delayed now →
      s.current_thread = none →
      takeLoopStep s tid now =
        some ({ s with current_thread := some tid },
          TakeOutcome.leaderWait (first.delayed now))) ∧
      (∀ (g g' : GState) (tid : Nat) (now d : Int),
        Step g (Label.loopIter tid now (TakeOutcome.leaderWait d)) g' →
        g'.inner.current_thread = some tid ∧ g'.pcs tid = PC.blockedTimed d ∧
          ∃ first, peekMin g.inner.queue = some first ∧
            d = first.delayed now ∧ 0 < d) ∧
      (∀ (g g' : GState) (tid : Nat), Step g (Label.wakeTimed tid) g' →
        g'.pcs tid = PC.ready ∧
          (g.inner.current_thread = some tid →
            g'.inner.current_thread = none) ∧
          (g.inner.current_thread ≠ some tid → g'.inner = g.inner)) := by
  refine ⟨fun s tid now first hp hd hc => takeLoopStep_leader hp hd hc, ?_, ?_⟩
  · intro g g' tid now d hstep
    cases hstep with
    | loopIter tid now s' out hpc hts =>
      have hinv := takeLoopStep_leaderWait_inv hts
      refine ⟨?_, ?_, hinv.2.2⟩
      · show s'.current_thread = some tid
        rw [hinv.2.1]
      · show Function.update g.pcs tid (pcAfter (TakeOutcome.leaderWait d)) tid =
          PC.blockedTimed d
        rw [Function.update_same]
        rfl
  · intro g g' tid hstep
    cases hstep with
    | wakeTimed tid d hpc =>
      refine ⟨?_, ?_, ?_⟩
      · show Function.update g.pcs tid PC.ready tid = PC.ready
        rw [Function.update_same]
      · intro hc
        show (leaderWakeStep g.inner tid).current_thread = none
        rw [leaderWakeStep, if_pos hc]
      · intro hc
        show leaderWakeStep g.inner tid = g.inner
        rw [leaderWakeStep, if_neg hc]

/-- C4: in every reachable state at most one thread is recorded in the
leader slot, and along any step the leader recording is only ever cleared
by the recorded thread itself waking from its own timed wait; put steps
never change the leader slot. -/
theorem single_leader_cleared_only_by_self :
    (∀ g, Reachable g → ∀ t u, g.inner.current_thread = some t →
      g.inner.current_thread = some u → t = u) ∧
      (∀ g l g' t, Step g l g' → g.inner.current_thread = some t →
        g'.inner.current_thread ≠ some t →
        l = Label.wakeTimed t ∧ g'.inner.current_thread = none ∧
          ∃ d, g.pcs t = PC.blockedTimed d) ∧
      (∀ g tid item b g', Step g (Label.putItem tid item b) g' →
        g'.inner.current_thread = g.inner.current_thread) := by
  refine ⟨?_, ?_, ?_⟩
  · intro g _ t u ht hu
    rw [ht] at hu
    exact Option.some.inj hu
  · intro g l g' t hstep hsome hchg
    cases hstep with
    | put tid item hpc =>
      exact absurd hsome hchg
    | beginTake tid hpc =>
      exact absurd hsome hchg
    | loopIter tid now s' out hpc hts =>
      exact absurd (takeLoopStep_current_of_some hts hsome) hchg
    | wakeIndef tid hpc =>
      exact absurd hsome hchg
    | wakeTimed tid d hpc =>
      by_cases hc : g.inner.current_thread = some tid
      · have hti : tid = t := by
          rw [hc] at hsome
          exact Option.some.inj hsome
        subst hti
        refine ⟨rfl, ?_, d, hpc⟩
        show (leaderWakeStep g.inner tid).current_thread = none
        rw [leaderWakeStep, if_pos hc]
      · exfalso
        apply hchg
        show (leaderWakeStep g.inner tid).current_thread = some t
        rw [leaderWakeStep, if_neg hc]
        exact hsome
  · intro g tid item b g' hstep
    cases hstep with
    | put tid item hpc => rfl

/-- C8: for two items A and B with A's deadline strictly smaller, both
present in the store, any run of the step relation returns A before B: if
some step of the run returns B, an earlier step of the run already
returned A (delivery order is monotone in deadline, independent of
insertion order). -/
theorem earlier_deadline_delivered_first (g₀ gf : GState)
    (pre suf : List Label) (tid : Nat) (now : Int) (b : Bool) (A B : Item)
    (hrun : Steps g₀
      (pre ++ Label.loopIter tid now (TakeOutcome.returned B b) :: suf) gf)
    (hA : A ∈ g₀.inner.queue) (_hB : B ∈ g₀.inner.queue)
    (hAB : A.deadline < B.deadline) :
    ∃ l ∈ pre, returnsItem l A := by
  rcases Steps_append hrun with ⟨g₁, hpre, hrest⟩
  cases hrest with
  | cons hstep hsuf =>
    rename_i gmid
    cases hstep with
    | loopIter tid now s' out hpc hts =>
      have hchar := takeLoopStep_returned hts
      have hBmin : ∀ u ∈ g₁.inner.queue, B.deadline ≤ u.deadline :=
        peekMin_min hchar.1
      have hAnot : A ∉ g₁.inner.queue := by
        intro hAmem
        exact absurd hAB (not_lt.mpr (hBmin A hAmem))
      rcases Steps_mem_queue hpre hA with hmem | ⟨l, hl, hr⟩
      · exact absurd hmem hAnot
      · exact ⟨l, hl, hr⟩

/-- C10: whenever a take invocation returns an item from a reachable
state, the calling thread is not recorded in the leader slot, neither when
it runs the returning iteration nor at the moment of return: leadership
never leaks past a completed take. -/
theorem returning_thread_not_leader (g g' : GState) (tid : Nat) (now : Int)
    (item : Item) (b : Bool) (hr : Reachable g)
    (hstep : Step g (Label.loopIter tid now (TakeOutcome.returned item b)) g') :
    g.inner.current_thread ≠ some tid ∧ g'.inner.current_thread ≠ some tid := by
  have hinv := reachable_leaderInv hr
  cases hstep with
  | loopIter tid now s' out hpc hts =>
    have hnot : g.inner.current_thread ≠ some tid := by
      intro he
      rcases hinv tid he with ⟨d, hd⟩
      rw [hpc] at hd
      cases hd
    refine ⟨hnot, ?_⟩
    show s'.current_thread ≠ some tid
    rw [(takeLoopStep_returned hts).2.2.2.1]
    exact hnot

/-- Witness for C1: a concrete returning step, with the returned item due
at the evaluation time. -/
theorem take_returns_only_due_items_witness :
    Item.delayed ⟨0, 0⟩ 9 ≤ 0 :=
  take_returns_only_due_items ⟨⟨[⟨0, 0⟩], none⟩, fun _ => PC.ready⟩
    ⟨⟨[], none⟩, Function.update (fun _ => PC.ready) 0
      (pcAfter (TakeOutcome.returned ⟨0, 0⟩ false))⟩
    0 9 ⟨0, 0⟩ false
    (Step.loopIter _ 0 9 ⟨[], none⟩ (TakeOutcome.returned ⟨0, 0⟩ false) rfl
      (by decide))

/-- Witness for C2: pushing an item with the smallest deadline signals. -/
theorem put_signals_iff_new_head_witness :
    (putStep ⟨[⟨5, 0⟩], none⟩ ⟨3, 1⟩).2 = true :=
  (put_signals_iff_new_head ⟨[⟨5, 0⟩], none⟩ ⟨3, 1⟩).2.2.mpr (by decide)

/-- Witness for C3: a concrete leader election with timeout equal to the
remaining delay. -/
theorem leader_election_and_self_clear_witness :
    takeLoopStep ⟨[⟨10, 0⟩], none⟩ 7 3 =
      some (⟨[⟨10, 0⟩], some 7⟩, TakeOutcome.leaderWait 7) :=
  leader_election_and_self_clear.1 ⟨[⟨10, 0⟩], none⟩ 7 3 ⟨10, 0⟩ (by decide)
    (by decide) rfl

/-- Witness for C4: a reachable state with a recorded leader, and a
concrete clearing step performed by that leader itself. -/
theorem single_leader_cleared_only_by_self_witness :
    (0 : Nat) = 0 ∧
      (Label.wakeTimed 0 = Label.wakeTimed 0 ∧
        (leaderWakeStep ⟨[⟨100, 0⟩], some 0⟩ 0).current_thread = none ∧
        ∃ d, Function.update (Function.update (fun _ => PC.idle) 0 PC.ready) 0
          (pcAfter (TakeOutcome.leaderWait 100)) 0 = PC.blockedTimed d) := by
  have r1 : Reachable ⟨(putStep initState.inner ⟨100, 0⟩).1, initState.pcs⟩ :=
    Reachable.step Reachable.init (Step.put initState 0 ⟨100, 0⟩ rfl)
  have r2 : Reachable ⟨(putStep initState.inner ⟨100, 0⟩).1,
      Function.update initState.pcs 0 PC.ready⟩ :=
    Reachable.step r1 (Step.beginTake _ 0 rfl)
  have r3 : Reachable ⟨⟨[⟨100, 0⟩], some 0⟩,
      Function.update (Function.update initState.pcs 0 PC.ready) 0
        (pcAfter (TakeOutcome.leaderWait 100))⟩ :=
    Reachable.step r2 (Step.loopIter _ 0 0 ⟨[⟨100, 0⟩], some 0⟩
      (TakeOutcome.leaderWait 100) (by decide) (by decide))
  constructor
  · exact single_leader_cleared_only_by_self.1 _ r3 0 0 rfl rfl
  · exact single_leader_cleared_only_by_self.2.1
      ⟨⟨[⟨100, 0⟩], some 0⟩,
        Function.update (Function.update initState.pcs 0 PC.ready) 0
          (pcAfter (TakeOutcome.leaderWait 100))⟩
      (Label.wakeTimed 0) _ 0
      (Step.wakeTimed ⟨⟨[⟨100, 0⟩], some 0⟩,
        Function.update (Function.update initState.pcs 0 PC.ready) 0
          (pcAfter (TakeOutcome.leaderWait 100))⟩ 0 100 (by decide)) rfl
      (by decide)

/-- Witness for C5: the peeked item of a concrete store is a queued item
of globally smallest deadline. -/
theorem peek_returns_global_min_witness :
    (⟨2, 0⟩ : Item) ∈ [(⟨3, 1⟩ : Item), ⟨2, 0⟩] ∧
      ∀ u ∈ [(⟨3, 1⟩ : Item), ⟨2, 0⟩], (⟨2, 0⟩ : Item).deadline ≤ u.deadline :=
  (peek_returns_global_min ⟨[⟨3, 1⟩, ⟨2, 0⟩], none⟩).2.1 ⟨2, 0⟩ (by decide)

/-- Witness for C6: a take-loop step on a concrete empty store waits
without popping. -/
theorem take_on_empty_waits_witness :
    takeLoopStep ⟨[], none⟩ 0 0 = some (⟨[], none⟩, TakeOutcome.waitEmpty) :=
  (take_on_empty_waits ⟨⟨[], none⟩, fun _ => PC.idle⟩
    ⟨⟨[], none⟩, fun _ => PC.idle⟩).1 ⟨[], none⟩ 0 0 rfl

/-- Witness for C7: a concrete due pop whose signal condition holds. -/
theorem pop_signals_iff_no_leader_and_nonempty_witness :
    ((true = true) ↔
      (⟨[⟨0, 0⟩, ⟨1, 1⟩], none⟩ : DelayQueueInner).current_thread = none ∧
        (⟨[⟨1, 1⟩], none⟩ : DelayQueueInner).queue ≠ []) :=
  (pop_signals_iff_no_leader_and_nonempty ⟨⟨[], none⟩, fun _ => PC.idle⟩
    ⟨⟨[], none⟩, fun _ => PC.idle⟩).1 ⟨[⟨0, 0⟩, ⟨1, 1⟩], none⟩ ⟨[⟨1, 1⟩], none⟩
    0 9 ⟨0, 0⟩ true (by decide)

/-- Witness for C8: in a concrete three-step run that returns the
later-deadline item at its last step, an earlier step already returned the
earlier-deadline item. -/
theorem earlier_deadline_delivered_first_witness :
    ∃ l ∈ [Label.loopIter 0 9 (TakeOutcome.returned ⟨0, 0⟩ true),
      Label.beginTake 0], returnsItem l ⟨0, 0⟩ := by
  have h1 := Step.loopIter ⟨⟨[⟨0, 0⟩, ⟨1, 1⟩], none⟩, fun _ => PC.ready⟩ 0 9
    ⟨[⟨1, 1⟩], none⟩ (TakeOutcome.returned ⟨0, 0⟩ true) rfl (by decide)
  have h2 := Step.beginTake ⟨⟨[⟨1, 1⟩], none⟩,
    Function.update (fun _ => PC.ready) 0
      (pcAfter (TakeOutcome.returned ⟨0, 0⟩ true))⟩ 0 (by decide)
  have h3 := Step.loopIter ⟨⟨[⟨1, 1⟩], none⟩,
    Function.update (Function.update (fun _ => PC.ready) 0
      (pcAfter (TakeOutcome.returned ⟨0, 0⟩ true))) 0 PC.ready⟩ 0 9
    ⟨[], none⟩ (TakeOutcome.returned ⟨1, 1⟩ false) (by decide) (by decide)
  exact earlier_deadline_delivered_first _ _
    [Label.loopIter 0 9 (TakeOutcome.returned ⟨0, 0⟩ true), Label.beginTake 0]
    [] 0 9 false ⟨0, 0⟩ ⟨1, 1⟩
    (Steps.cons h1 (Steps.cons h2 (Steps.cons h3 (Steps.nil _))))
    (by decide) (by decide) (by decide)

/-- Witness for C9: a concrete put step changes the store alone. -/
theorem put_frame_witness :
    ((⟨(putStep ⟨[], none⟩ ⟨4, 2⟩).1, fun _ => PC.idle⟩ : GState).pcs =
        (⟨⟨[], none⟩, fun _ => PC.idle⟩ : GState).pcs ∧
      (putStep ⟨[], none⟩ ⟨4, 2⟩).1.current_thread =
        (⟨[], none⟩ : DelayQueueInner).current_thread ∧
      (putStep ⟨[], none⟩ ⟨4, 2⟩).1.queue =
        ⟨4, 2⟩ :: (⟨[], none⟩ : DelayQueueInner).queue) :=
  (put_frame ⟨[], none⟩ ⟨4, 2⟩ ⟨⟨[], none⟩, fun _ => PC.idle⟩
    ⟨(putStep ⟨[], none⟩ ⟨4, 2⟩).1, fun _ => PC.idle⟩).2 0 ⟨4, 2⟩ _
    (Step.put ⟨⟨[], none⟩, fun _ => PC.idle⟩ 0 ⟨4, 2⟩ rfl)

/-- Witness for C10: a concrete reachable returning step whose caller is
not the recorded leader before or after. -/
theorem returning_thread_not_leader_witness :
    (putStep initState.inner ⟨0, 0⟩).1.current_thread ≠ some 0 ∧
      (⟨[], none⟩ : DelayQueueInner).current_thread ≠ some 0 := by
  have r1 : Reachable ⟨(putStep initState.inner ⟨0, 0⟩).1, initState.pcs⟩ :=
    Reachable.step Reachable.init (Step.put initState 0 ⟨0, 0⟩ rfl)
  have r2 : Reachable ⟨(putStep initState.inner ⟨0, 0⟩).1,
      Function.update initState.pcs 0 PC.ready⟩ :=
    Reachable.step r1 (Step.beginTake _ 0 rfl)
  exact returning_thread_not_leader _ _ 0 5 ⟨0, 0⟩ false r2
    (Step.loopIter _ 0 5 ⟨[], none⟩ (TakeOutcome.returned ⟨0, 0⟩ false)
      (by decide) (by decide))

end DelayQueueRs
